import Mathlib

/-!
Shallow embedding of the crypto-exchange market-data proxy core
(candle store, interval parser, aggregator, historical/backfill service,
stream-collector callback), together with theorems settling the spec
claims about it.

Modelling conventions:
* Python ints are `Int`; Python floor division `//` is `Int.fdiv`.
* Prices and volumes (Python floats / SQLite REAL) are modelled as `Rat`,
  so arithmetic is exact; the claims under study are structural
  (first/last/max/min/sum, branch selection) and do not hinge on binary
  floating-point rounding.
* The SQLite store is a list of rows; the `UNIQUE(coin_pair, timestamp)`
  upsert is an explicit find-and-overwrite; `ORDER BY timestamp ASC` is an
  insertion sort; `LIMIT n` is `List.take n`.
* `async` plays no semantic role in the modelled fragments and is dropped.
* Python exceptions are modelled with `Except`; a `try/except` that
  swallows the error is a `match` recovering the pre-exception state.
* Rows' `id` and `created_at` columns are bookkeeping never read by the
  modelled logic (the upsert clause touches neither) and are omitted.
-/

/-- A row of the `candle_data` table / the `CandleData` model
(`app/db/models.py`): key `(coin_pair, timestamp)` plus OHLCV, quote
volume and the confirm flag.  `open_` stands for the source's `open`
column, which is a reserved word here. -/
structure CandleData where
  coin_pair : String
  timestamp : Int
  open_ : Rat
  high : Rat
  low : Rat
  close : Rat
  volume : Rat
  volume_quote : Rat
  confirm : Int
deriving DecidableEq, Repr

/-- An aggregated bar as returned by `DataAggregator` (a Python dict with
keys timestamp/open/high/low/close/volume/volume_quote). -/
structure Bar where
  timestamp : Int
  open_ : Rat
  high : Rat
  low : Rat
  close : Rat
  volume : Rat
  volume_quote : Rat
deriving DecidableEq, Repr

/-- `(coin_pair, timestamp)` key equality, the `UNIQUE(coin_pair, timestamp)`
conflict test of `candle_data` (`app/db/database.py`, `init_tables`). -/
def same_key (a b : CandleData) : Bool :=
  a.coin_pair == b.coin_pair && a.timestamp == b.timestamp

/-- The `ON CONFLICT(coin_pair, timestamp) DO UPDATE SET ...` clause of
`Database.insert_candle`: overwrite OHLCV, quote volume and confirm of the
existing row, keeping its key. -/
def overwrite_fields (r c : CandleData) : CandleData :=
  { r with open_ := c.open_, high := c.high, low := c.low, close := c.close,
           volume := c.volume, volume_quote := c.volume_quote, confirm := c.confirm }

/-- `Database.insert_candle` (`app/db/database.py` lines 146-189): SQL
`INSERT ... ON CONFLICT(coin_pair, timestamp) DO UPDATE`.  If a row with
the same key exists it is updated in place, otherwise the row is
appended. -/
def insert_candle (store : List CandleData) (c : CandleData) : List CandleData :=
  if store.any (fun r => same_key r c) then
    store.map (fun r => if same_key r c then overwrite_fields r c else r)
  else
    store ++ [c]

/-- `Database.insert_candles_batch`: `executemany` of the same upsert
statement, i.e. the upserts applied in batch order. -/
def insert_candles_batch (store : List CandleData) (cs : List CandleData) : List CandleData :=
  cs.foldl insert_candle store

/-- Insertion step for the `ORDER BY timestamp ASC` model (stable). -/
def insert_by_ts (c : CandleData) : List CandleData → List CandleData
  | [] => [c]
  | d :: rest => if c.timestamp ≤ d.timestamp then c :: d :: rest else d :: insert_by_ts c rest

/-- `ORDER BY timestamp ASC` over a bag of rows (stable insertion sort). -/
def sort_by_ts (l : List CandleData) : List CandleData :=
  l.foldr insert_by_ts []

/-- The optional `timestamp >= ?` / `timestamp <= ?` filters of
`Database.get_candles` (both bounds inclusive). -/
def in_range (start_time end_time : Option Int) (c : CandleData) : Bool :=
  (match start_time with | none => true | some s => s ≤ c.timestamp) &&
  (match end_time with | none => true | some e => c.timestamp ≤ e)

/-- `Database.get_candles` (`app/db/database.py` lines 227-269):
`SELECT * FROM candle_data WHERE coin_pair = ? [AND timestamp >= ?]
[AND timestamp <= ?] ORDER BY timestamp ASC [LIMIT ?]`. -/
def get_candles (store : List CandleData) (coin_pair : String)
    (start_time end_time : Option Int) (limit : Option Nat) : List CandleData :=
  let rows := sort_by_ts (store.filter
    (fun c => c.coin_pair == coin_pair && in_range start_time end_time c))
  match limit with
  | none => rows
  | some n => rows.take n

/-- `Database.get_latest_candle`: the row with maximum timestamp for the
pair (`ORDER BY timestamp DESC LIMIT 1`), or `none`. -/
def get_latest_candle (store : List CandleData) (coin_pair : String) : Option CandleData :=
  (sort_by_ts (store.filter (fun c => c.coin_pair == coin_pair))).getLast?

/-- The dict built from a raw 1m row in the `interval_minutes == 1` branch
of `DataAggregator.aggregate_candles` (confirm is dropped). -/
def candle_to_bar (c : CandleData) : Bar :=
  { timestamp := c.timestamp, open_ := c.open_, high := c.high, low := c.low,
    close := c.close, volume := c.volume, volume_quote := c.volume_quote }

/-- Python `str.lower` (the interval strings at issue are ASCII). -/
def str_lower (s : List Char) : List Char :=
  s.map Char.toLower

/-- Python `str.endswith`. -/
def endswith (s suf : List Char) : Bool :=
  decide (suf <:+ s)

/-- Python `str.rstrip(chars)`: remove the longest trailing run of
characters drawn from `strip`. -/
def rstrip_chars (s strip : List Char) : List Char :=
  ((s.reverse).dropWhile (fun c => strip.contains c)).reverse

/-- Value of a decimal digit string (the numeric core of Python `int`). -/
def digits_val (l : List Char) : Nat :=
  l.foldl (fun a c => 10 * a + (c.toNat - 48)) 0

/-- Python `int(s)` on the strings reaching it here: an optional sign
followed by a non-empty run of decimal digits parses to that integer,
anything else raises `ValueError` (`none`). -/
def py_int (s : List Char) : Option Int :=
  match s with
  | [] => none
  | c :: r =>
    if c = '-' then
      if r ≠ [] ∧ r.all Char.isDigit then some (-(digits_val r : Int)) else none
    else if c = '+' then
      if r ≠ [] ∧ r.all Char.isDigit then some ((digits_val r : Int)) else none
    else
      if (c :: r).all Char.isDigit then some ((digits_val (c :: r) : Int)) else none

/-- `DataAggregator._parse_interval` (`app/services/aggregator.py` lines
107-146): lower-case the string, dispatch on the trailing unit
(`m`/`min`, `h`/`hour`, `d`/`day`, `w`/`week`), strip the unit characters
from the right with `rstrip` and convert the rest with `int`, scaling to
minutes; `None` when no unit matches or `int` fails. -/
def parse_interval (interval : List Char) : Option Int :=
  let s := str_lower interval
  if endswith s ['m'] || endswith s ['m', 'i', 'n'] then
    py_int (rstrip_chars s ['m', 'i', 'n'])
  else if endswith s ['h'] || endswith s ['h', 'o', 'u', 'r'] then
    (py_int (rstrip_chars s ['h', 'o', 'u', 'r'])).map (fun hours => hours * 60)
  else if endswith s ['d'] || endswith s ['d', 'a', 'y'] then
    (py_int (rstrip_chars s ['d', 'a', 'y'])).map (fun days => days * 24 * 60)
  else if endswith s ['w'] || endswith s ['w', 'e', 'e', 'k'] then
    (py_int (rstrip_chars s ['w', 'e', 'e', 'k'])).map (fun weeks => weeks * 7 * 24 * 60)
  else
    none

/-- `DataAggregator._aggregate_group` on a non-empty group `g0 :: rest`
(`app/services/aggregator.py` lines 161-169): timestamp is the supplied
period start, open of the first bar, close of the last, max of highs, min
of lows, sums of volumes. -/
def aggregate_group_ne (c0 : CandleData) (rest : List CandleData) (period_start : Int) : Bar :=
  { timestamp := period_start
    open_ := c0.open_
    high := rest.foldl (fun m c => max m c.high) c0.high
    low := rest.foldl (fun m c => min m c.low) c0.low
    close := ((c0 :: rest).getLastD c0).close
    volume := ((c0 :: rest).map (fun c => c.volume)).sum
    volume_quote := ((c0 :: rest).map (fun c => c.volume_quote)).sum }

/-- `DataAggregator._aggregate_group` including the `if not candles:
return {}` guard (the empty dict is `none`; callers never hit it). -/
def aggregate_group (candles : List CandleData) (period_start : Int) : Option Bar :=
  match candles with
  | [] => none
  | c :: rest => some (aggregate_group_ne c rest period_start)

/-- The grouping loop of `DataAggregator.aggregate_candles`
(`app/services/aggregator.py` lines 83-99), written as a recursion over
the remaining candles with the current group held as head `g0` plus tail
`grest`.  On a bucket change (`current_group[0].timestamp // interval_ms
!= period_start // interval_ms`) the current group is flushed with
timestamp `period_start - interval_ms`; the final group is flushed with
its own bucket start. -/
def agg_run (interval_ms : Int) : CandleData → List CandleData → List CandleData → List Bar
  | g0, grest, [] =>
    [aggregate_group_ne g0 grest ((g0.timestamp.fdiv interval_ms) * interval_ms)]
  | g0, grest, candle :: rest =>
    let period_start := (candle.timestamp.fdiv interval_ms) * interval_ms
    if g0.timestamp.fdiv interval_ms ≠ period_start.fdiv interval_ms then
      aggregate_group_ne g0 grest (period_start - interval_ms) ::
        agg_run interval_ms candle [] rest
    else
      agg_run interval_ms g0 (grest ++ [candle]) rest

/-- Lines 79-99 of `aggregate_candles` as a function of the fetched 1m
candles: empty input yields the empty list, otherwise the grouping loop
starting with the first candle as its own group. -/
def aggregate_candles_core (interval_ms : Int) : List CandleData → List Bar
  | [] => []
  | c :: rest => agg_run interval_ms c [] rest

/-- Python `aggregated[-limit:]` for a non-negative `limit`
(`aggregate_candles` line 103): `[-0:]` is the whole list, `[-n:]` for
`n > 0` is the last `n` elements. -/
def py_slice_last (l : List Bar) (n : Nat) : List Bar :=
  if n = 0 then l else l.drop (l.length - n)

/-- `DataAggregator.aggregate_candles` (`app/services/aggregator.py` lines
20-105): parse the interval (`ValueError` on failure), serve `1m` straight
from the store with the caller's limit, otherwise fetch the window without
limit, run the grouping loop, and apply the `[-limit:]` slice when a limit
was given. -/
def aggregate_candles (store : List CandleData) (coin_pair : String) (interval : List Char)
    (start_time end_time : Option Int) (limit : Option Nat) : Except String (List Bar) :=
  match parse_interval interval with
  | none => Except.error "unsupported interval"
  | some interval_minutes =>
    if interval_minutes = 1 then
      Except.ok ((get_candles store coin_pair start_time end_time limit).map candle_to_bar)
    else
      match get_candles store coin_pair start_time end_time none with
      | [] => Except.ok []
      | c :: rest =>
        let interval_ms := interval_minutes * 60 * 1000
        let aggregated := agg_run interval_ms c [] rest
        Except.ok (match limit with
          | none => aggregated
          | some n => py_slice_last aggregated n)

/-- `HistoricalDataService._check_data_completeness`
(`app/services/historical_data_service.py` lines 205-269).  Returns
`(is_complete, expected_count, actual_count)`.  `expected_count` is
`(end - start) // 60000`; `actual_count` counts the stored rows in the
inclusive window; `latest_timestamp` is the pair's latest row timestamp or
the sentinel `0`.  If the latest row falls inside `[start, end)`, the tail
beyond it is the only missing region: complete outright when
`latest + 60000 > end`, otherwise the ratio compares
`actual + missing_range_minutes` (the code's `actual_usable_count`)
against a threshold relaxed to 0.8 when the tail is at most 10% of the
window.  Otherwise plain `actual/expected` against `threshold`, with an
empty window (`expected == 0`) trivially complete. -/
def check_data_completeness (store : List CandleData) (db_coinpair : String)
    (start_time end_time : Int) (threshold : Rat) : Bool × Int × Nat :=
  let expected_count : Int := (end_time - start_time).fdiv 60000
  let actual_count : Nat :=
    (get_candles store db_coinpair (some start_time) (some end_time) none).length
  let latest_timestamp : Int :=
    match get_latest_candle store db_coinpair with
    | some c => c.timestamp
    | none => 0
  if latest_timestamp ≥ start_time ∧ latest_timestamp < end_time then
    let needed_start_time := latest_timestamp + 60000
    if needed_start_time > end_time then
      (true, expected_count, actual_count)
    else
      let missing_range_minutes : Int := (end_time - needed_start_time).fdiv 60000
      let effective_threshold : Rat :=
        if ((end_time - needed_start_time : Int) : Rat) >
            ((end_time - start_time : Int) : Rat) * (1 / 10) then threshold else 4 / 5
      let actual_usable_count : Rat := (actual_count : Rat) + (missing_range_minutes : Rat)
      let completeness_ratio : Rat := actual_usable_count / (expected_count : Rat)
      (decide (completeness_ratio ≥ effective_threshold), expected_count, actual_count)
  else if expected_count = 0 then
    (true, expected_count, actual_count)
  else
    (decide ((actual_count : Rat) / (expected_count : Rat) ≥ threshold),
      expected_count, actual_count)

/-- The backfill decision of `HistoricalDataService.get_candlestick_data`
(line 119): `_download_and_fill_data` is invoked exactly when
`_check_data_completeness` reported the window incomplete. -/
def backfill_triggered (store : List CandleData) (db_coinpair : String)
    (start_time end_time : Int) (threshold : Rat) : Bool :=
  !(check_data_completeness store db_coinpair start_time end_time threshold).1

/-- One bar as returned by the exchange's historical endpoint
(`exchange_service.get_historical_candlestick`): a dict whose
`volume_quote` key may be absent (`candle.get('volume_quote',
candle['volume'])`). -/
structure PayloadCandle where
  timestamp : Int
  open_ : Rat
  high : Rat
  low : Rat
  close : Rat
  volume : Rat
  volume_quote : Option Rat
deriving DecidableEq, Repr

/-- The `CandleData(...)` construction of `_download_and_fill_data`
(lines 342-352): quote volume defaults to base volume, `confirm = 1`. -/
def payload_to_candle (db_coinpair : String) (c : PayloadCandle) : CandleData :=
  { coin_pair := db_coinpair, timestamp := c.timestamp, open_ := c.open_,
    high := c.high, low := c.low, close := c.close, volume := c.volume,
    volume_quote := c.volume_quote.getD c.volume, confirm := 1 }

/-- External effects of `_download_and_fill_data`, as oracles: `fetch`
maps a chunk's `since` timestamp to the exchange response or a raised
error; `insert_ok` says whether the batch insert for that chunk commits
or raises a storage error; `setup_err` is a failure raised before the
chunk loop (config lookup, `ExchangeService` construction — e.g.
`getattr(ccxt, name)` on an unknown exchange — or `get_latest_candle`). -/
structure DlEnv where
  fetch : Int → Except String (List PayloadCandle)
  insert_ok : Int → Bool
  setup_err : Option String

/-- Body of the inner `try` of `_download_and_fill_data` (lines 321-365):
fetch the chunk, filter to `[chunk_start, chunk_end]`, convert and batch
upsert.  An exchange or storage failure is the `Except.error` case. -/
def chunk_body (env : DlEnv) (db_coinpair : String) (store : List CandleData)
    (chunk_start chunk_end : Int) : Except String (List CandleData) :=
  match env.fetch chunk_start with
  | Except.error e => Except.error e
  | Except.ok data =>
    if data.isEmpty then
      Except.ok store
    else
      let filtered := data.filter (fun c => chunk_start ≤ c.timestamp && c.timestamp ≤ chunk_end)
      if filtered.isEmpty then
        Except.ok store
      else if env.insert_ok chunk_start then
        Except.ok (insert_candles_batch store (filtered.map (payload_to_candle db_coinpair)))
      else
        Except.error "storage error"

/-- The chunked `while current_download_start <= end_time` walk of
`_download_and_fill_data` (lines 316-372) with its per-chunk
`try/except`: a failed chunk leaves the store as it was and the walk
advances to the next chunk exactly as a successful one does
(`current_download_start = chunk_end_time + 60000` in both paths).
Returns the final store and the list of chunk `since` values actually
sent to the exchange. -/
def dl_loop (env : DlEnv) (db_coinpair : String) (end_time : Int)
    (store : List CandleData) (cur : Int) : List CandleData × List Int :=
  if h : cur ≤ end_time then
    let chunk_end := min (cur + 86400000) end_time
    let store' := match chunk_body env db_coinpair store cur chunk_end with
      | Except.ok s => s
      | Except.error _ => store
    let next := dl_loop env db_coinpair end_time store' (chunk_end + 60000)
    (next.1, cur :: next.2)
  else
    (store, [])
termination_by (end_time + 1 - cur).toNat
decreasing_by simp_wf; omega

/-- The resume-point computation of `_download_and_fill_data` (lines
298-307): when a latest row exists with `latest.timestamp >= start_time`,
resume from `latest.timestamp + 60000`, returning early (`none`, no fetch)
when that exceeds `end_time`; otherwise start from `start_time`. -/
def download_start (latest : Option CandleData) (start_time end_time : Int) : Option Int :=
  match latest with
  | some lc =>
    if lc.timestamp ≥ start_time then
      if lc.timestamp + 60000 > end_time then none else some (lc.timestamp + 60000)
    else
      some start_time
  | none => some start_time

/-- `HistoricalDataService._download_and_fill_data`
(`app/services/historical_data_service.py` lines 271-381).  The outer
`except Exception` handler logs `total_downloaded`, a local assigned only
at line 314 *after* the setup steps; a setup failure therefore raises
`UnboundLocalError` inside the handler, which propagates to the caller —
modelled as the `Except.error` result.  With setup succeeding, the
resume point is computed and the chunk walk runs, never raising. -/
def download_and_fill_data (env : DlEnv) (store : List CandleData) (db_coinpair : String)
    (start_time end_time : Int) : Except String (List CandleData × List Int) :=
  match env.setup_err with
  | some _ => Except.error "UnboundLocalError: total_downloaded"
  | none =>
    match download_start (get_latest_candle store db_coinpair) start_time end_time with
    | none => Except.ok (store, [])
    | some s => Except.ok (dl_loop env db_coinpair end_time store s)

/-- The `confirm` field parsed by `OKXCandleCollector._candle_callback`
(`app/services/okx_websocket.py` line 256):
`int(candle_data[8]) if len(candle_data) > 8 else 0`.  Payload entries
are the numeric values of the exchange's string array. -/
def rec_confirm (r : List Rat) : Int :=
  (if 8 < r.length then r.getD 8 0 else 0).floor

/-- The `CandleData(...)` built by `_candle_callback` (lines 249-279)
from one payload record: positional fields 0-5, `volume_quote` from
index 7 when present (line 255), confirm from index 9 when present. -/
def rec_to_candle (inst_id : String) (r : List Rat) : CandleData :=
  { coin_pair := inst_id
    timestamp := (r.getD 0 0).floor
    open_ := r.getD 1 0
    high := r.getD 2 0
    low := r.getD 3 0
    close := r.getD 4 0
    volume := r.getD 5 0
    volume_quote := if 7 < r.length then r.getD 7 0 else 0
    confirm := rec_confirm r }

/-- The persisting loop of `OKXCandleCollector._candle_callback` (lines
247-284): for each record of the message, skip it when `confirm != 1`
(line 259), otherwise upsert the parsed bar via `Database.insert_candle`. -/
def candle_callback (store : List CandleData) (inst_id : String)
    (records : List (List Rat)) : List CandleData :=
  records.foldl
    (fun st r => if rec_confirm r ≠ 1 then st else insert_candle st (rec_to_candle inst_id r))
    store

/-- The bucket index `timestamp // interval_ms` of a candle (spec: `floor(t / W)`). -/
def bkt (interval_ms : Int) (c : CandleData) : Int :=
  c.timestamp.fdiv interval_ms

/-- Specification-side grouping: partition a candle list into maximal
consecutive runs of equal bucket index, each run as head plus tail. -/
def bucket_runs (interval_ms : Int) : List CandleData → List (CandleData × List CandleData)
  | [] => []
  | c :: cs =>
    (c, cs.takeWhile (fun d => bkt interval_ms d == bkt interval_ms c)) ::
      bucket_runs interval_ms (cs.dropWhile (fun d => bkt interval_ms d == bkt interval_ms c))
termination_by l => l.length
decreasing_by
  simp_wf
  exact Nat.lt_succ_of_le (List.dropWhile_sublist _).length_le

/-- Specification-side description of the emitted bars: every run is
aggregated with `aggregate_group_ne`; the final run is stamped with its
own bucket start `k·W`, every earlier run with `(k_next - 1)·W` where
`k_next` is the bucket of the following run. -/
def agg_spec (interval_ms : Int) : List (CandleData × List CandleData) → List Bar
  | [] => []
  | [(g0, grest)] => [aggregate_group_ne g0 grest (bkt interval_ms g0 * interval_ms)]
  | (g0, grest) :: (h0, hrest) :: gs =>
    aggregate_group_ne g0 grest ((bkt interval_ms h0 - 1) * interval_ms) ::
      agg_spec interval_ms ((h0, hrest) :: gs)

lemma agg_run_eq_spec (W : Int) (hW : W ≠ 0) :
    ∀ (cs : List CandleData) (g0 : CandleData) (grest : List CandleData),
    agg_run W g0 grest cs =
      agg_spec W ((g0, grest ++ cs.takeWhile (fun d => bkt W d == bkt W g0)) ::
        bucket_runs W (cs.dropWhile (fun d => bkt W d == bkt W g0))) := by
  intro cs
  induction cs with
  | nil =>
    intro g0 grest
    simp [agg_run, agg_spec, bucket_runs, bkt]
  | cons c cs ih =>
    intro g0 grest
    have hps : ((c.timestamp.fdiv W) * W).fdiv W = c.timestamp.fdiv W :=
      Int.mul_fdiv_cancel _ hW
    by_cases hb : bkt W c = bkt W g0
    · have hcond : ¬ (g0.timestamp.fdiv W ≠ ((c.timestamp.fdiv W) * W).fdiv W) := by
        simp only [hps, ne_eq, not_not]
        exact hb.symm
      rw [agg_run, if_neg hcond, ih g0 (grest ++ [c])]
      have htw : (c :: cs).takeWhile (fun d => bkt W d == bkt W g0) =
          c :: cs.takeWhile (fun d => bkt W d == bkt W g0) := by
        rw [List.takeWhile_cons, if_pos (by simpa using hb)]
      have hdw : (c :: cs).dropWhile (fun d => bkt W d == bkt W g0) =
          cs.dropWhile (fun d => bkt W d == bkt W g0) := by
        rw [List.dropWhile_cons, if_pos (by simpa using hb)]
      rw [htw, hdw]
      simp
    · have hcond : g0.timestamp.fdiv W ≠ ((c.timestamp.fdiv W) * W).fdiv W := by
        simp only [hps, ne_eq]
        exact fun h => hb (h.symm)
      rw [agg_run, if_pos hcond, ih c []]
      have htw : (c :: cs).takeWhile (fun d => bkt W d == bkt W g0) = [] := by
        rw [List.takeWhile_cons, if_neg (by simpa using hb)]
      have hdw : (c :: cs).dropWhile (fun d => bkt W d == bkt W g0) = c :: cs := by
        rw [List.dropWhile_cons, if_neg (by simpa using hb)]
      rw [htw, hdw]
      show _ :: _ = agg_spec W ((g0, grest ++ []) :: bucket_runs W (c :: cs))
      rw [bucket_runs, List.append_nil]
      show _ :: _ = aggregate_group_ne g0 grest ((bkt W c - 1) * W) :: _
      have : (c.timestamp.fdiv W) * W - W = (bkt W c - 1) * W := by
        rw [bkt, Int.sub_mul, one_mul]
      rw [this]
      simp

lemma dropWhile_head_false {α : Type} {p : α → Bool} :
    ∀ {l : List α} {d : α} {t : List α}, l.dropWhile p = d :: t → p d = false := by
  intro l
  induction l with
  | nil => intro d t h; simp at h
  | cons a l ih =>
    intro d t h
    rw [List.dropWhile_cons] at h
    by_cases ha : p a = true
    · exact ih (by rwa [if_pos ha] at h)
    · rw [if_neg ha] at h
      cases h
      simpa using ha

lemma bkt_mono (W : Int) (hW : 0 < W) {a b : CandleData}
    (h : a.timestamp ≤ b.timestamp) : bkt W a ≤ bkt W b := by
  rw [bkt, bkt, Int.fdiv_eq_ediv _ (le_of_lt hW), Int.fdiv_eq_ediv _ (le_of_lt hW)]
  exact Int.ediv_le_ediv hW h

lemma bucket_runs_flatten (W : Int) :
    ∀ l : List CandleData, ((bucket_runs W l).map (fun g => g.1 :: g.2)).flatten = l := by
  intro l
  induction l using bucket_runs.induct W with
  | case1 => simp [bucket_runs]
  | case2 c cs ih =>
    rw [bucket_runs]
    simp only [List.map_cons, List.flatten_cons]
    rw [ih, List.cons_append, List.takeWhile_append_dropWhile]

lemma bucket_runs_mem (W : Int) :
    ∀ l : List CandleData, ∀ g ∈ bucket_runs W l, ∀ d ∈ g.1 :: g.2, d ∈ l := by
  intro l
  induction l using bucket_runs.induct W with
  | case1 => simp [bucket_runs]
  | case2 c cs ih =>
    intro g hg d hd
    rw [bucket_runs] at hg
    rcases List.mem_cons.mp hg with rfl | hg
    · rcases List.mem_cons.mp hd with rfl | hd
      · exact List.mem_cons_self _ _
      · exact List.mem_cons_of_mem _ ((List.takeWhile_sublist _).mem (by simpa using hd))
    · exact List.mem_cons_of_mem _ ((List.dropWhile_sublist _).mem (ih g hg d hd))

lemma bucket_runs_const (W : Int) :
    ∀ l : List CandleData, ∀ g ∈ bucket_runs W l, ∀ d ∈ g.1 :: g.2, bkt W d = bkt W g.1 := by
  intro l
  induction l using bucket_runs.induct W with
  | case1 => simp [bucket_runs]
  | case2 c cs ih =>
    intro g hg d hd
    rw [bucket_runs] at hg
    rcases List.mem_cons.mp hg with rfl | hg
    · rcases List.mem_cons.mp hd with rfl | hd
      · rfl
      · have := List.mem_takeWhile_imp (by simpa using hd)
        simpa using this
    · exact ih g hg d hd

lemma bucket_runs_complete (W : Int) (hW : 0 < W) :
    ∀ l : List CandleData, l.Pairwise (fun a b => a.timestamp < b.timestamp) →
    ∀ g ∈ bucket_runs W l, ∀ x ∈ l, bkt W x = bkt W g.1 → x ∈ g.1 :: g.2 := by
  intro l
  induction l using bucket_runs.induct W with
  | case1 => simp [bucket_runs]
  | case2 c cs ih =>
    intro hs g hg x hx hbx
    rw [List.pairwise_cons] at hs
    obtain ⟨hc, hcs⟩ := hs
    have key : ∀ y ∈ cs.dropWhile (fun d => bkt W d == bkt W c), bkt W c < bkt W y := by
      intro y hy
      cases hdw : cs.dropWhile (fun d => bkt W d == bkt W c) with
      | nil => rw [hdw] at hy; simp at hy
      | cons d t =>
        rw [hdw] at hy
        have hd_ne : ¬ bkt W d = bkt W c := by
          simpa using dropWhile_head_false hdw
        have hd_cs : d ∈ cs :=
          (List.dropWhile_sublist _).mem (hdw ▸ List.mem_cons_self d t)
        have hbcd : bkt W c < bkt W d :=
          lt_of_le_of_ne (bkt_mono W hW (le_of_lt (hc d hd_cs))) (Ne.symm hd_ne)
        have hpdw : (d :: t).Pairwise (fun a b => a.timestamp < b.timestamp) :=
          List.Pairwise.sublist (hdw ▸ (List.dropWhile_sublist _)) hcs
        rcases List.mem_cons.mp hy with rfl | hy'
        · exact hbcd
        · have hdy : d.timestamp < y.timestamp := (List.pairwise_cons.mp hpdw).1 y hy'
          exact lt_of_lt_of_le hbcd (bkt_mono W hW (le_of_lt hdy))
    rw [bucket_runs] at hg
    rcases List.mem_cons.mp hg with rfl | hg
    · rcases List.mem_cons.mp hx with rfl | hx
      · exact List.mem_cons_self _ _
      · have hsplit : x ∈ cs.takeWhile (fun d => bkt W d == bkt W c) ++
            cs.dropWhile (fun d => bkt W d == bkt W c) := by
          rw [List.takeWhile_append_dropWhile]; exact hx
        rcases List.mem_append.mp hsplit with h1 | h2
        · exact List.mem_cons_of_mem _ h1
        · exact absurd hbx (by have := key x h2; simp only []; omega)
    · have hg1 : g.1 ∈ cs.dropWhile (fun d => bkt W d == bkt W c) :=
        bucket_runs_mem W _ g hg g.1 (List.mem_cons_self _ _)
      have hbg : bkt W c < bkt W g.1 := key g.1 hg1
      rcases List.mem_cons.mp hx with rfl | hx
      · exact absurd hbx (by omega)
      · have hsplit : x ∈ cs.takeWhile (fun d => bkt W d == bkt W c) ++
            cs.dropWhile (fun d => bkt W d == bkt W c) := by
          rw [List.takeWhile_append_dropWhile]; exact hx
        rcases List.mem_append.mp hsplit with h1 | h2
        · have hxc : bkt W x = bkt W c := by
            simpa using List.mem_takeWhile_imp h1
          exact absurd (hxc ▸ hbx) (by omega)
        · exact ih (List.Pairwise.sublist (List.dropWhile_sublist _) hcs) g hg x h2 hbx

lemma agg_spec_consecutive (W : Int) :
    ∀ rs : List (CandleData × List CandleData),
    List.Chain' (fun g h => bkt W h.1 = bkt W g.1 + 1) rs →
    agg_spec W rs = rs.map (fun g => aggregate_group_ne g.1 g.2 (bkt W g.1 * W)) := by
  intro rs
  induction rs with
  | nil => intro _; simp [agg_spec]
  | cons g rs ih =>
    obtain ⟨g0, gr⟩ := g
    cases rs with
    | nil => intro _; simp [agg_spec]
    | cons h t =>
      obtain ⟨h0, hr⟩ := h
      intro hch
      rw [List.chain'_cons] at hch
      have hl : (bkt W h0 - 1) * W = bkt W g0 * W := by
        have : bkt W h0 = bkt W g0 + 1 := hch.1
        rw [this]; ring
      rw [agg_spec, hl, ih hch.2]
      simp

/-- A bar in bucket 0 of a 5-minute window (W = 300000 ms). -/
def c1_bar_a : CandleData :=
  { coin_pair := "BTC-USDT", timestamp := 0, open_ := 10, high := 12, low := 9,
    close := 11, volume := 2, volume_quote := 20, confirm := 1 }

/-- A bar in bucket 2 of a 5-minute window; bucket 1 is empty. -/
def c1_bar_b : CandleData :=
  { coin_pair := "BTC-USDT", timestamp := 600000, open_ := 11, high := 13, low := 10,
    close := 12, volume := 3, volume_quote := 30, confirm := 1 }

/-- C1 counterexample: aggregating the bars with timestamps 0 and 600000
at W = 300000 (buckets 0 and 2, bucket 1 empty), the emitted bar that
covers exactly the bucket-0 bar carries timestamp 300000, not the bucket
start `0·W = 0` the claim requires; so the claim fails when a whole
bucket inside the window is empty. -/
theorem aggregate_gap_timestamp_cex :
    (aggregate_candles_core 300000 [c1_bar_a, c1_bar_b]).map
        (fun b => (b.timestamp, b.open_, b.close)) =
      [(300000, c1_bar_a.open_, c1_bar_a.close), (600000, c1_bar_b.open_, c1_bar_b.close)] ∧
    bkt 300000 c1_bar_a = 0 ∧ bkt 300000 c1_bar_b = 2 := by
  refine ⟨by decide, by decide, by decide⟩

/-- C1 (amended): for W > 0 and timestamp-sorted input, the aggregation
loop emits one bar per maximal bucket run; the runs partition the input,
each run holds exactly the input bars of its bucket `k`, and each bar is
the OHLCV composition (`aggregate_group_ne`) of its run.  The final run's
bar is stamped `k·W`; every earlier run's bar is stamped
`(k_next - 1)·W` for the following run's bucket `k_next` (see `agg_spec`),
which collapses to `k·W` for every bar exactly when consecutive runs have
consecutive buckets, i.e. when no whole bucket inside the data's span is
empty. -/
theorem aggregate_bucket_characterization (W : Int) (hW : 0 < W)
    (cs : List CandleData)
    (hs : cs.Pairwise (fun a b => a.timestamp < b.timestamp)) :
    aggregate_candles_core W cs = agg_spec W (bucket_runs W cs) ∧
    ((bucket_runs W cs).map (fun g => g.1 :: g.2)).flatten = cs ∧
    (∀ g ∈ bucket_runs W cs,
      (∀ d ∈ g.1 :: g.2, bkt W d = bkt W g.1) ∧
      (∀ x ∈ cs, bkt W x = bkt W g.1 → x ∈ g.1 :: g.2)) ∧
    (List.Chain' (fun g h => bkt W h.1 = bkt W g.1 + 1) (bucket_runs W cs) →
      aggregate_candles_core W cs =
        (bucket_runs W cs).map (fun g => aggregate_group_ne g.1 g.2 (bkt W g.1 * W))) := by
  have hW0 : W ≠ 0 := ne_of_gt hW
  have hmain : aggregate_candles_core W cs = agg_spec W (bucket_runs W cs) := by
    cases cs with
    | nil => simp [aggregate_candles_core, bucket_runs, agg_spec]
    | cons c rest =>
      rw [aggregate_candles_core, agg_run_eq_spec W hW0 rest c [], bucket_runs]
      simp
  refine ⟨hmain, bucket_runs_flatten W cs, ?_, ?_⟩
  · intro g hg
    exact ⟨bucket_runs_const W cs g hg, bucket_runs_complete W hW cs hs g hg⟩
  · intro hch
    rw [hmain, agg_spec_consecutive W _ hch]

/-- Witness for `aggregate_bucket_characterization` at a concrete sorted
input with positive window size. -/
theorem aggregate_bucket_characterization_witness :
    (0 : Int) < 300000 ∧
    ([c1_bar_a, c1_bar_b] : List CandleData).Pairwise
      (fun a b => a.timestamp < b.timestamp) ∧
    aggregate_candles_core 300000 [c1_bar_a, c1_bar_b] =
      agg_spec 300000 (bucket_runs 300000 [c1_bar_a, c1_bar_b]) :=
  ⟨by decide, by decide,
    (aggregate_bucket_characterization 300000 (by decide) [c1_bar_a, c1_bar_b]
      (by decide)).1⟩

lemma foldl_min_le_init {f : CandleData → Rat} :
    ∀ (l : List CandleData) (a : Rat), l.foldl (fun m c => min m (f c)) a ≤ a := by
  intro l
  induction l with
  | nil => intro a; simp
  | cons c t ih =>
    intro a
    exact le_trans (ih (min a (f c))) (min_le_left _ _)

lemma foldl_min_le_mem {f : CandleData → Rat} :
    ∀ (l : List CandleData) (a : Rat) (x : CandleData), x ∈ l →
      l.foldl (fun m c => min m (f c)) a ≤ f x := by
  intro l
  induction l with
  | nil => intro a x hx; simp at hx
  | cons c t ih =>
    intro a x hx
    rcases List.mem_cons.mp hx with rfl | hx
    · exact le_trans (foldl_min_le_init t (min a (f x))) (min_le_right _ _)
    · exact ih (min a (f c)) x hx

lemma le_foldl_max_init {f : CandleData → Rat} :
    ∀ (l : List CandleData) (a : Rat), a ≤ l.foldl (fun m c => max m (f c)) a := by
  intro l
  induction l with
  | nil => intro a; simp
  | cons c t ih =>
    intro a
    exact le_trans (le_max_left _ _) (ih (max a (f c)))

lemma le_foldl_max_mem {f : CandleData → Rat} :
    ∀ (l : List CandleData) (a : Rat) (x : CandleData), x ∈ l →
      f x ≤ l.foldl (fun m c => max m (f c)) a := by
  intro l
  induction l with
  | nil => intro a x hx; simp at hx
  | cons c t ih =>
    intro a x hx
    rcases List.mem_cons.mp hx with rfl | hx
    · exact le_trans (le_max_right _ _) (le_foldl_max_init t (max a (f x)))
    · exact ih (max a (f c)) x hx

lemma getLastD_cons_mem : ∀ (l : List CandleData) (c d : CandleData),
    (c :: l).getLastD d ∈ c :: l := by
  intro l
  induction l with
  | nil => intro c d; simp [List.getLastD]
  | cons e t ih =>
    intro c d
    rw [List.getLastD_cons]
    exact List.mem_cons_of_mem _ (ih e c)

/-- The bar invariant of spec section 8:
`low ≤ min(open, close)`, `max(open, close) ≤ high`, non-negative volumes. -/
def wf_candle (c : CandleData) : Prop :=
  c.low ≤ min c.open_ c.close ∧ max c.open_ c.close ≤ c.high ∧
    0 ≤ c.volume ∧ 0 ≤ c.volume_quote

/-- The same well-formedness invariant on an aggregated bar. -/
def wf_bar (b : Bar) : Prop :=
  b.low ≤ min b.open_ b.close ∧ max b.open_ b.close ≤ b.high ∧
    0 ≤ b.volume ∧ 0 ≤ b.volume_quote

lemma wf_aggregate_group_ne (g0 : CandleData) (grest : List CandleData) (period_start : Int)
    (h : ∀ c ∈ g0 :: grest, wf_candle c) :
    wf_bar (aggregate_group_ne g0 grest period_start) := by
  have hg0 := h g0 (List.mem_cons_self _ _)
  have hlast_mem := getLastD_cons_mem grest g0 g0
  have hlast := h _ hlast_mem
  constructor
  · apply le_min
    · calc grest.foldl (fun m c => min m c.low) g0.low ≤ g0.low := foldl_min_le_init grest g0.low
        _ ≤ min g0.open_ g0.close := hg0.1
        _ ≤ g0.open_ := min_le_left _ _
    · have h1 : grest.foldl (fun m c => min m c.low) g0.low ≤ ((g0 :: grest).getLastD g0).low := by
        rcases List.mem_cons.mp hlast_mem with he | he
        · rw [he]; exact foldl_min_le_init grest g0.low
        · exact foldl_min_le_mem grest g0.low _ he
      calc grest.foldl (fun m c => min m c.low) g0.low
          ≤ ((g0 :: grest).getLastD g0).low := h1
        _ ≤ min ((g0 :: grest).getLastD g0).open_ ((g0 :: grest).getLastD g0).close := hlast.1
        _ ≤ ((g0 :: grest).getLastD g0).close := min_le_right _ _
  refine ⟨?_, ?_, ?_⟩
  · apply max_le
    · calc g0.open_ ≤ max g0.open_ g0.close := le_max_left _ _
        _ ≤ g0.high := hg0.2.1
        _ ≤ grest.foldl (fun m c => max m c.high) g0.high := le_foldl_max_init grest g0.high
    · have h1 : ((g0 :: grest).getLastD g0).high ≤ grest.foldl (fun m c => max m c.high) g0.high := by
        rcases List.mem_cons.mp hlast_mem with he | he
        · rw [he]; exact le_foldl_max_init grest g0.high
        · exact le_foldl_max_mem grest g0.high _ he
      calc ((g0 :: grest).getLastD g0).close
          ≤ max ((g0 :: grest).getLastD g0).open_ ((g0 :: grest).getLastD g0).close :=
            le_max_right _ _
        _ ≤ ((g0 :: grest).getLastD g0).high := hlast.2.1
        _ ≤ grest.foldl (fun m c => max m c.high) g0.high := h1
  · apply List.sum_nonneg
    intro v hv
    obtain ⟨c, hc, rfl⟩ := List.mem_map.mp hv
    exact (h c hc).2.2.1
  · apply List.sum_nonneg
    intro v hv
    obtain ⟨c, hc, rfl⟩ := List.mem_map.mp hv
    exact (h c hc).2.2.2

lemma agg_run_bars (W : Int) :
    ∀ (cs : List CandleData) (g0 : CandleData) (grest : List CandleData),
    ∀ b ∈ agg_run W g0 grest cs, ∃ h0 hrest ps,
      b = aggregate_group_ne h0 hrest ps ∧
      h0 ∈ g0 :: (grest ++ cs) ∧ ∀ d ∈ hrest, d ∈ g0 :: (grest ++ cs) := by
  intro cs
  induction cs with
  | nil =>
    intro g0 grest b hb
    rw [agg_run] at hb
    rcases List.mem_singleton.mp hb with rfl
    exact ⟨g0, grest, _, rfl, by simp, fun d hd => by simp [hd]⟩
  | cons c rest ih =>
    intro g0 grest b hb
    rw [agg_run] at hb
    by_cases hcond : g0.timestamp.fdiv W ≠ ((c.timestamp.fdiv W) * W).fdiv W
    · rw [if_pos hcond] at hb
      rcases List.mem_cons.mp hb with rfl | hb
      · exact ⟨g0, grest, _, rfl, by simp, fun d hd => by simp [hd]⟩
      · obtain ⟨h0, hrest, ps, hbe, hh0, hhr⟩ := ih c [] b hb
        refine ⟨h0, hrest, ps, hbe, ?_, ?_⟩
        · simp at hh0 ⊢
          tauto
        · intro d hd
          have := hhr d hd
          simp at this ⊢
          tauto
    · rw [if_neg hcond] at hb
      obtain ⟨h0, hrest, ps, hbe, hh0, hhr⟩ := ih g0 (grest ++ [c]) b hb
      refine ⟨h0, hrest, ps, hbe, ?_, ?_⟩
      · simp at hh0 ⊢
        tauto
      · intro d hd
        have := hhr d hd
        simp at this ⊢
        tauto

/-- C8: the OHLCV composition of `_aggregate_group` preserves the bar
invariant: a non-empty group of well-formed one-minute bars aggregates to
a well-formed bar, and consequently every bar emitted by the aggregation
loop on well-formed input is well-formed. -/
theorem aggregation_preserves_invariant (g0 : CandleData) (grest : List CandleData)
    (period_start : Int) (h : ∀ c ∈ g0 :: grest, wf_candle c) :
    wf_bar (aggregate_group_ne g0 grest period_start) ∧
    (∀ (W : Int) (cs : List CandleData), (∀ c ∈ cs, wf_candle c) →
      ∀ b ∈ aggregate_candles_core W cs, wf_bar b) := by
  refine ⟨wf_aggregate_group_ne g0 grest period_start h, ?_⟩
  intro W cs hcs b hb
  cases cs with
  | nil => simp [aggregate_candles_core] at hb
  | cons c rest =>
    rw [aggregate_candles_core] at hb
    obtain ⟨h0, hrest, ps, rfl, hh0, hhr⟩ := agg_run_bars W rest c [] b hb
    apply wf_aggregate_group_ne
    intro d hd
    rcases List.mem_cons.mp hd with rfl | hd
    · exact hcs d (by simpa using hh0)
    · exact hcs d (by simpa using hhr d hd)

/-- Witness for `aggregation_preserves_invariant` on a concrete
well-formed group. -/
theorem aggregation_preserves_invariant_witness :
    (∀ c ∈ [c1_bar_a, c1_bar_b], wf_candle c) ∧
    wf_bar (aggregate_group_ne c1_bar_a [c1_bar_b] 0) :=
  ⟨by norm_num [wf_candle, c1_bar_a, c1_bar_b],
    (aggregation_preserves_invariant c1_bar_a [c1_bar_b] 0
      (by norm_num [wf_candle, c1_bar_a, c1_bar_b])).1⟩

/-- The store-level uniqueness invariant: no two rows share a
`(coin_pair, timestamp)` key (the `UNIQUE(coin_pair, timestamp)`
constraint). -/
def at_most_one_per_key (store : List CandleData) : Prop :=
  store.Pairwise (fun a b => same_key a b = false)

instance (store : List CandleData) : Decidable (at_most_one_per_key store) :=
  inferInstanceAs (Decidable (store.Pairwise (fun a b => same_key a b = false)))

lemma same_key_overwrite (r c x : CandleData) :
    same_key (overwrite_fields r c) x = same_key r x := by
  simp [same_key, overwrite_fields]

lemma same_key_overwrite_right (x r c : CandleData) :
    same_key x (overwrite_fields r c) = same_key x r := by
  simp [same_key, overwrite_fields]

lemma upsert_fun_preserves_key (c r x : CandleData) :
    same_key (if same_key r c then overwrite_fields r c else r) x = same_key r x := by
  by_cases h : same_key r c
  · rw [if_pos h, same_key_overwrite]
  · rw [if_neg h]

lemma same_key_refl (c : CandleData) : same_key c c = true := by
  simp [same_key]

lemma overwrite_self (c : CandleData) : overwrite_fields c c = c := rfl

lemma overwrite_eq_of_same_key {r c : CandleData} (h : same_key r c = true) :
    overwrite_fields r c = c := by
  simp only [same_key, Bool.and_eq_true, beq_iff_eq] at h
  obtain ⟨h1, h2⟩ := h
  simp [overwrite_fields, h1, h2]

lemma insert_candle_of_mem {s : List CandleData} {c : CandleData}
    (h : s.any (fun r => same_key r c) = true) :
    insert_candle s c = s.map (fun r => if same_key r c then overwrite_fields r c else r) := by
  rw [insert_candle, if_pos h]

lemma insert_candle_of_not_mem {s : List CandleData} {c : CandleData}
    (h : s.any (fun r => same_key r c) = false) :
    insert_candle s c = s ++ [c] := by
  rw [insert_candle, h]
  simp

lemma insert_candle_preserves_key_inv (s : List CandleData) (c : CandleData)
    (h : at_most_one_per_key s) : at_most_one_per_key (insert_candle s c) := by
  by_cases hany : s.any (fun r => same_key r c) = true
  · rw [insert_candle_of_mem hany]
    rw [at_most_one_per_key, List.pairwise_map]
    refine h.imp_of_mem ?_
    intro a b _ _ hab
    rw [upsert_fun_preserves_key]
    by_cases hb : same_key b c
    · rw [if_pos hb, same_key_overwrite_right]
      exact hab
    · rw [if_neg hb]
      exact hab
  · rw [insert_candle_of_not_mem (Bool.eq_false_iff.mpr hany)]
    rw [at_most_one_per_key, List.pairwise_append]
    refine ⟨h, by simp, ?_⟩
    intro a ha b hb
    rcases List.mem_singleton.mp hb with rfl
    have := List.any_eq_false.mp (Bool.eq_false_iff.mpr hany) a ha
    simpa using this

lemma insert_candle_idem (s : List CandleData) (c : CandleData) :
    insert_candle (insert_candle s c) c = insert_candle s c := by
  by_cases hany : s.any (fun r => same_key r c) = true
  · rw [insert_candle_of_mem hany]
    have hany2 : (s.map (fun r => if same_key r c then overwrite_fields r c else r)).any
        (fun r => same_key r c) = true := by
      rw [List.any_map]
      refine List.any_eq_true.mpr ?_
      obtain ⟨r, hr, hrc⟩ := List.any_eq_true.mp hany
      exact ⟨r, hr, by simpa [Function.comp, upsert_fun_preserves_key] using hrc⟩
    rw [insert_candle_of_mem hany2, List.map_map]
    refine List.map_congr_left ?_
    intro r _
    simp only [Function.comp]
    by_cases hr : same_key r c
    · rw [if_pos hr, if_pos (by rw [same_key_overwrite]; exact hr)]
      rfl
    · rw [if_neg hr, if_neg hr]
  · have hfalse := Bool.eq_false_iff.mpr hany
    rw [insert_candle_of_not_mem hfalse]
    have hany2 : (s ++ [c]).any (fun r => same_key r c) = true := by
      rw [List.any_append]
      simp [same_key_refl]
    rw [insert_candle_of_mem hany2, List.map_append]
    have h1 : s.map (fun r => if same_key r c then overwrite_fields r c else r) = s := by
      have h1a : s.map (fun r => if same_key r c then overwrite_fields r c else r) = s.map id :=
        List.map_congr_left (fun r hr => by
          rw [if_neg (by simpa using List.any_eq_false.mp hfalse r hr)]; rfl)
      simpa using h1a
    have h2 : [c].map (fun r => if same_key r c then overwrite_fields r c else r) = [c] := by
      simp [same_key_refl, overwrite_self]
    rw [h1, h2]

lemma foldl_insert_preserves_key_inv :
    ∀ (cs : List CandleData) (s : List CandleData), at_most_one_per_key s →
      at_most_one_per_key (List.foldl insert_candle s cs) := by
  intro cs
  induction cs with
  | nil => intro s h; exact h
  | cons d ds ih => intro s h; exact ih _ (insert_candle_preserves_key_inv s d h)

/-- C5: the `(pair, timestamp)` upsert converges — upserting the same bar
twice equals upserting it once; any sequence of upserts preserves the
at-most-one-row-per-key invariant; and when the key is already present the
upsert overwrites the row's payload in place instead of adding a row. -/
theorem upsert_convergence (s : List CandleData) (c : CandleData) (cs : List CandleData)
    (h : at_most_one_per_key s) :
    insert_candle (insert_candle s c) c = insert_candle s c ∧
    at_most_one_per_key (List.foldl insert_candle s cs) ∧
    ((∃ r ∈ s, same_key r c = true) →
      (insert_candle s c).length = s.length ∧
      ∀ r ∈ insert_candle s c, same_key r c = true → r = c) := by
  refine ⟨insert_candle_idem s c, foldl_insert_preserves_key_inv cs s h, ?_⟩
  intro hex
  have hany : s.any (fun r => same_key r c) = true :=
    List.any_eq_true.mpr (by obtain ⟨r, hr, hrc⟩ := hex; exact ⟨r, hr, hrc⟩)
  rw [insert_candle_of_mem hany]
  refine ⟨List.length_map _ _, ?_⟩
  intro r hr hrc
  obtain ⟨r0, hr0, rfl⟩ := List.mem_map.mp hr
  by_cases h0 : same_key r0 c
  · rw [if_pos h0]
    exact overwrite_eq_of_same_key h0
  · rw [if_neg h0] at hrc ⊢
    exact absurd hrc h0

/-- A stored sample row. -/
def sample_row : CandleData :=
  { coin_pair := "BTC-USDT", timestamp := 60000, open_ := 100, high := 101,
    low := 99, close := 100, volume := 5, volume_quote := 500, confirm := 1 }

/-- The same `(pair, timestamp)` key as `sample_row` with a different
payload (the claim's re-delivered bar). -/
def sample_row_v2 : CandleData :=
  { coin_pair := "BTC-USDT", timestamp := 60000, open_ := 100, high := 102,
    low := 99, close := 101, volume := 6, volume_quote := 600, confirm := 1 }

/-- Witness for `upsert_convergence` at a concrete one-row store. -/
theorem upsert_convergence_witness :
    at_most_one_per_key [sample_row] ∧
    insert_candle (insert_candle [sample_row] sample_row_v2) sample_row_v2 =
      insert_candle [sample_row] sample_row_v2 ∧
    at_most_one_per_key
      (List.foldl insert_candle [sample_row] [sample_row_v2, sample_row_v2]) :=
  ⟨by decide,
    (upsert_convergence [sample_row] sample_row_v2 [sample_row_v2, sample_row_v2]
      (by decide)).1,
    (upsert_convergence [sample_row] sample_row_v2 [sample_row_v2, sample_row_v2]
      (by decide)).2.1⟩

lemma candle_callback_eq_filtered (inst_id : String) :
    ∀ (records : List (List Rat)) (store : List CandleData),
    candle_callback store inst_id records =
      insert_candles_batch store
        ((records.filter (fun r => rec_confirm r == 1)).map (rec_to_candle inst_id)) := by
  intro records
  induction records with
  | nil => intro store; rfl
  | cons r rs ih =>
    intro store
    by_cases h : rec_confirm r = 1
    · rw [candle_callback, List.foldl_cons, if_neg (by simpa using h)]
      rw [show (rs.foldl (fun st r =>
          if rec_confirm r ≠ 1 then st else insert_candle st (rec_to_candle inst_id r))
          (insert_candle store (rec_to_candle inst_id r))) =
          candle_callback (insert_candle store (rec_to_candle inst_id r)) inst_id rs from rfl]
      rw [ih]
      rw [List.filter_cons, if_pos (by simpa using h), List.map_cons]
      rfl
    · rw [candle_callback, List.foldl_cons, if_pos (by simpa using h)]
      rw [show (rs.foldl (fun st r =>
          if rec_confirm r ≠ 1 then st else insert_candle st (rec_to_candle inst_id r))
          store) = candle_callback store inst_id rs from rfl]
      rw [ih]
      rw [List.filter_cons, if_neg (by simpa using h)]

/-- C6: the stream callback persists exactly the payload records whose
confirm field is 1 — the resulting store is the batch upsert of the
parsed confirmed records, and a message with no confirmed record leaves
the store untouched. -/
theorem stream_confirm_filter (store : List CandleData) (inst_id : String)
    (records : List (List Rat)) (hlen : ∀ r ∈ records, 6 ≤ r.length) :
    candle_callback store inst_id records =
      insert_candles_batch store
        ((records.filter (fun r => rec_confirm r == 1)).map (rec_to_candle inst_id)) ∧
    ((∀ r ∈ records, rec_confirm r ≠ 1) →
      candle_callback store inst_id records = store) := by
  refine ⟨candle_callback_eq_filtered inst_id records store, ?_⟩
  intro hall
  rw [candle_callback_eq_filtered inst_id records store]
  have : records.filter (fun r => rec_confirm r == 1) = [] := by
    rw [List.filter_eq_nil_iff]
    intro r hr
    simpa using hall r hr
  rw [this]
  rfl

/-- A confirmed OKX payload record (confirm field, index 8, equals 1). -/
def okx_rec_confirmed : List Rat :=
  [1700000000000, 10, 12, 9, 11, 2, 5, 20, 1]

/-- An in-progress OKX payload record (confirm field equals 0). -/
def okx_rec_partial : List Rat :=
  [1700000060000, 11, 13, 10, 12, 3, 6, 30, 0]

/-- Witness for `stream_confirm_filter` on a two-record message. -/
theorem stream_confirm_filter_witness :
    (∀ r ∈ [okx_rec_confirmed, okx_rec_partial], 6 ≤ r.length) ∧
    candle_callback [] "BTC-USDT" [okx_rec_confirmed, okx_rec_partial] =
      insert_candles_batch []
        (([okx_rec_confirmed, okx_rec_partial].filter
            (fun r => rec_confirm r == 1)).map (rec_to_candle "BTC-USDT")) :=
  ⟨by decide,
    (stream_confirm_filter [] "BTC-USDT" [okx_rec_confirmed, okx_rec_partial]
      (by decide)).1⟩

/-- C10: with `limit = 0` the two interval paths of `aggregate_candles`
disagree: for an interval parsing to 1 minute the result is the empty
list (the store scan runs with SQL `LIMIT 0`), while for any coarser
interval the `[-0:]` slice keeps everything, so the result equals the
full no-limit aggregation of the window. -/
theorem limit_zero_paths (store : List CandleData) (coin_pair : String)
    (interval : List Char) (start_time end_time : Option Int) :
    (parse_interval interval = some 1 →
      aggregate_candles store coin_pair interval start_time end_time (some 0) =
        Except.ok []) ∧
    (∀ im, parse_interval interval = some im → im ≠ 1 →
      aggregate_candles store coin_pair interval start_time end_time (some 0) =
        aggregate_candles store coin_pair interval start_time end_time none) := by
  constructor
  · intro hp
    rw [aggregate_candles, hp]
    simp only [if_pos rfl]
    simp [get_candles]
  · intro im hp him
    rw [aggregate_candles, aggregate_candles, hp]
    simp only [if_neg him]
    cases get_candles store coin_pair start_time end_time none with
    | nil => rfl
    | cons c rest =>
      simp [py_slice_last]

/-- Witness for `limit_zero_paths` at `1m` and `5m` on a one-row store. -/
theorem limit_zero_paths_witness :
    parse_interval ['1', 'm'] = some 1 ∧
    aggregate_candles [sample_row] "BTC-USDT" ['1', 'm'] none none (some 0) =
      Except.ok [] ∧
    parse_interval ['5', 'm'] = some 5 ∧
    aggregate_candles [sample_row] "BTC-USDT" ['5', 'm'] none none (some 0) =
      aggregate_candles [sample_row] "BTC-USDT" ['5', 'm'] none none none :=
  ⟨by decide,
    (limit_zero_paths [sample_row] "BTC-USDT" ['1', 'm'] none none).1 (by decide),
    by decide,
    (limit_zero_paths [sample_row] "BTC-USDT" ['5', 'm'] none none).2 5 (by decide)
      (by decide)⟩

/-- C7 (amended): for a requested window of non-negative width below one
minute (`expected = 0`), the completeness check reports complete and no
backfill is invoked, whatever the store holds. -/
theorem empty_window_no_backfill (store : List CandleData) (db_coinpair : String)
    (start_time end_time : Int) (threshold : Rat)
    (h0 : 0 ≤ end_time - start_time) (h1 : end_time - start_time < 60000) :
    (check_data_completeness store db_coinpair start_time end_time threshold).1 = true ∧
    backfill_triggered store db_coinpair start_time end_time threshold = false := by
  have hfst :
      (check_data_completeness store db_coinpair start_time end_time threshold).1 = true := by
    simp only [check_data_completeness]
    generalize (match get_latest_candle store db_coinpair with
      | some c => c.timestamp
      | none => 0) = L
    by_cases hA : L ≥ start_time ∧ L < end_time
    · rw [if_pos hA, if_pos (by omega : L + 60000 > end_time)]
    · rw [if_neg hA, if_pos ?_]
      have h60 : (0 : Int) ≤ 60000 := by decide
      rw [Int.fdiv_eq_ediv _ h60]
      exact Int.ediv_eq_zero_of_lt h0 h1
  exact ⟨hfst, by rw [backfill_triggered, hfst]; rfl⟩

/-- Witness for `empty_window_no_backfill` at a 59999 ms window over a
non-empty store. -/
theorem empty_window_no_backfill_witness :
    (0 : Int) ≤ 119999 - 60000 ∧ (119999 - 60000 : Int) < 60000 ∧
    (check_data_completeness [sample_row] "BTC-USDT" 60000 119999 (19 / 20)).1 = true ∧
    backfill_triggered [sample_row] "BTC-USDT" 60000 119999 (19 / 20) = false :=
  ⟨by decide, by decide,
    (empty_window_no_backfill [sample_row] "BTC-USDT" 60000 119999 (19 / 20)
      (by decide) (by decide)).1,
    (empty_window_no_backfill [sample_row] "BTC-USDT" 60000 119999 (19 / 20)
      (by decide) (by decide)).2⟩

/-- C7 counterexample: a requested window with negative width (reachable
with a future `since`, which the boundary does not cap at `now`) has
`end - start < 60000` yet `expected = -1`, the check reports *incomplete*
(`0 / (-1) = 0 < 0.95`), and the backfill branch is taken. -/
theorem negative_window_backfill_cex :
    check_data_completeness [] "BTC-USDT" 60000 0 (19 / 20) = (false, -1, 0) ∧
    backfill_triggered [] "BTC-USDT" 60000 0 (19 / 20) = true := by
  have hmain : check_data_completeness [] "BTC-USDT" 60000 0 (19 / 20) = (false, -1, 0) := by
    simp only [check_data_completeness]
    rw [show get_latest_candle [] "BTC-USDT" = none from rfl]
    rw [if_neg (by decide)]
    rw [show get_candles [] "BTC-USDT" (some 60000) (some 0) none = [] from rfl]
    rw [show ((0 : Int) - 60000).fdiv 60000 = -1 from by decide]
    rw [if_neg (by decide)]
    have hr : ¬ (((List.length ([] : List CandleData) : Nat) : Rat) / ((-1 : Int) : Rat) ≥
        19 / 20) := by norm_num
    simp [hr]
  exact ⟨hmain, by rw [backfill_triggered, hmain]; rfl⟩

/-- C2 (amended): when the latest stored bar lies inside `[start, end)`
and `latest + 60000 ≤ end`, the gap past the latest bar is treated as the
only missing region; the threshold is the caller's (0.95 by default) when
that tail exceeds 10% of the window and relaxes to 0.8 otherwise; and
completeness compares `(actual + missing_tail_minutes) / expected` — the
code's `actual_usable_count` ratio, not `actual / expected` — against
that threshold. -/
theorem completeness_tail_branch (store : List CandleData) (db_coinpair : String)
    (start_time end_time : Int) (threshold : Rat) (lc : CandleData)
    (hl : get_latest_candle store db_coinpair = some lc)
    (h1 : start_time ≤ lc.timestamp) (h2 : lc.timestamp < end_time)
    (h3 : lc.timestamp + 60000 ≤ end_time) :
    check_data_completeness store db_coinpair start_time end_time threshold =
      (decide ((((get_candles store db_coinpair (some start_time) (some end_time)
            none).length : Rat) +
          (((end_time - (lc.timestamp + 60000)).fdiv 60000 : Int) : Rat)) /
          (((end_time - start_time).fdiv 60000 : Int) : Rat) ≥
          (if ((end_time - (lc.timestamp + 60000) : Int) : Rat) >
              ((end_time - start_time : Int) : Rat) * (1 / 10) then threshold else 4 / 5)),
        (end_time - start_time).fdiv 60000,
        (get_candles store db_coinpair (some start_time) (some end_time) none).length) := by
  simp only [check_data_completeness, hl]
  rw [if_pos ⟨by omega, h2⟩, if_neg (by omega : ¬ lc.timestamp + 60000 > end_time)]

/-- Witness for `completeness_tail_branch` on a one-row store with the
latest bar inside the window. -/
theorem completeness_tail_branch_witness :
    get_latest_candle [sample_row] "BTC-USDT" = some sample_row ∧
    (0 : Int) ≤ sample_row.timestamp ∧ sample_row.timestamp < 180000 ∧
    sample_row.timestamp + 60000 ≤ 180000 ∧
    check_data_completeness [sample_row] "BTC-USDT" 0 180000 (19 / 20) =
      (decide ((((get_candles [sample_row] "BTC-USDT" (some 0) (some 180000)
            none).length : Rat) +
          ((((180000 : Int) - (sample_row.timestamp + 60000)).fdiv 60000 : Int) : Rat)) /
          ((((180000 : Int) - 0).fdiv 60000 : Int) : Rat) ≥
          (if (((180000 : Int) - (sample_row.timestamp + 60000) : Int) : Rat) >
              (((180000 : Int) - 0 : Int) : Rat) * (1 / 10) then (19 / 20) else 4 / 5)),
        ((180000 : Int) - 0).fdiv 60000,
        (get_candles [sample_row] "BTC-USDT" (some 0) (some 180000) none).length) :=
  ⟨by decide, by decide, by decide, by decide,
    completeness_tail_branch [sample_row] "BTC-USDT" 0 180000 (19 / 20) sample_row
      (by decide) (by decide) (by decide) (by decide)⟩

/-- The claim's scenario store: one bar per minute at `t = 60000·k`,
`k = 1..20`, so the latest bar sits at 1 200 000 = `end − 10 min` for the
window `[0, 1 800 000]` and 20 bars lie inside the window. -/
def c2_store : List CandleData :=
  (List.range 20).map (fun k =>
    { coin_pair := "BTC-USDT", timestamp := 60000 * ((k : Int) + 1), open_ := 100,
      high := 101, low := 99, close := 100, volume := 1, volume_quote := 100,
      confirm := 1 })

/-- C2 counterexample, at the claim's own scenario: a 30-minute window
`[0, 1 800 000]` whose store covers the first 20 minutes (latest bar at
1 200 000, 10-minute missing tail, actual/expected = 20/30 ≈ 0.67 which
is below both 0.8 and 0.95).  The claim says the window is judged
incomplete and backfill runs; the code instead compares
`(actual + missing)/expected = 29/30 ≥ 0.95`, judges the window complete,
and issues no backfill. -/
theorem completeness_usable_count_cex :
    check_data_completeness c2_store "BTC-USDT" 0 1800000 (19 / 20) = (true, 30, 20) ∧
    backfill_triggered c2_store "BTC-USDT" 0 1800000 (19 / 20) = false := by
  have hlat : get_latest_candle c2_store "BTC-USDT" = some
      { coin_pair := "BTC-USDT", timestamp := 1200000, open_ := 100, high := 101,
        low := 99, close := 100, volume := 1, volume_quote := 100, confirm := 1 } := by
    decide
  have hlen : (get_candles c2_store "BTC-USDT" (some 0) (some 1800000) none).length = 20 := by
    decide
  have hmain : check_data_completeness c2_store "BTC-USDT" 0 1800000 (19 / 20) =
      (true, 30, 20) := by
    simp only [check_data_completeness, hlat]
    rw [if_pos (by decide), if_neg (by decide)]
    rw [hlen]
    rw [show ((1800000 : Int) - ((1200000 : Int) + 60000)).fdiv 60000 = 9 from by decide]
    rw [show ((1800000 : Int) - 0).fdiv 60000 = 30 from by decide]
    rw [if_pos (by norm_num :
      (((1800000 : Int) - ((1200000 : Int) + 60000) : Int) : Rat) >
        (((1800000 : Int) - 0 : Int) : Rat) * (1 / 10))]
    congr 1
    rw [decide_eq_true_eq]
    norm_num
  exact ⟨hmain, by rw [backfill_triggered, hmain]; rfl⟩

/-- C4 (amended): the backfill resumes from `latest.timestamp + 60000`
whenever a latest bar exists with `latest.timestamp ≥ start` — regardless
of whether it lies inside or beyond the window, and then the value agrees
with `max(start, latest + 60000)` — and from `start` otherwise (latest
absent, or latest strictly before `start`, even within 60 s of it).  When
the resume point would exceed `end` the walk issues no fetch: the
`latest`-branch returns early, and a resume point past `end` makes the
chunk loop exit immediately. -/
theorem resume_point_characterization (env : DlEnv) (store : List CandleData)
    (db_coinpair : String) (latest : Option CandleData) (start_time end_time : Int) :
    (∀ lc, latest = some lc → start_time ≤ lc.timestamp →
      download_start latest start_time end_time =
        (if lc.timestamp + 60000 > end_time then none
         else some (max start_time (lc.timestamp + 60000)))) ∧
    ((latest = none ∨ ∃ lc, latest = some lc ∧ lc.timestamp < start_time) →
      download_start latest start_time end_time = some start_time) ∧
    (env.setup_err = none →
      ∀ r, download_start (get_latest_candle store db_coinpair) start_time end_time = some r →
        end_time < r →
        download_and_fill_data env store db_coinpair start_time end_time =
          Except.ok (store, [])) ∧
    (env.setup_err = none →
      download_start (get_latest_candle store db_coinpair) start_time end_time = none →
      download_and_fill_data env store db_coinpair start_time end_time =
        Except.ok (store, [])) := by
  refine ⟨?_, ?_, ?_, ?_⟩
  · rintro lc rfl hge
    simp only [download_start]
    rw [if_pos (by omega : lc.timestamp ≥ start_time)]
    by_cases hend : lc.timestamp + 60000 > end_time
    · rw [if_pos hend, if_pos hend]
    · rw [if_neg hend, if_neg hend, max_eq_right (by omega)]
  · rintro (rfl | ⟨lc, rfl, hlt⟩)
    · rfl
    · simp only [download_start]
      rw [if_neg (by omega : ¬ lc.timestamp ≥ start_time)]
  · intro hsetup r hr hgt
    rw [download_and_fill_data, hsetup]
    simp only [hr]
    rw [dl_loop, dif_neg (by omega : ¬ r ≤ end_time)]
  · intro hsetup hr
    rw [download_and_fill_data, hsetup]
    simp only [hr]

/-- An environment whose setup (exchange construction) fails. -/
def env_setup_fail : DlEnv :=
  { fetch := fun _ => Except.ok [], insert_ok := fun _ => true,
    setup_err := some "AttributeError: ccxt has no such exchange" }

/-- An environment whose exchange fetch fails on every chunk. -/
def env_fetch_fail : DlEnv :=
  { fetch := fun _ => Except.error "network error", insert_ok := fun _ => true,
    setup_err := none }

/-- A latest bar strictly before the window start but within 60 s of it. -/
def c4_latest : CandleData :=
  { coin_pair := "BTC-USDT", timestamp := 30000, open_ := 100, high := 101,
    low := 99, close := 100, volume := 1, volume_quote := 100, confirm := 1 }

/-- C4 counterexample: with `start = 60000`, `end = 200000` and a latest
bar at 30000 (before the window), the claimed formula gives
`max(60000, 30000 + 60000) = 90000`, but the code resumes from
`start = 60000`. -/
theorem resume_before_window_cex :
    download_start (some c4_latest) 60000 200000 = some 60000 ∧
    max (60000 : Int) (c4_latest.timestamp + 60000) = 90000 ∧
    (60000 : Int) ≠ 90000 :=
  ⟨by decide, by decide, by decide⟩

/-- Witness for `resume_point_characterization`: a latest bar at 120000
inside the window `[0, 86400000]` resumes at `max(0, 180000) = 180000`,
and a resume point beyond `end` issues no fetch. -/
theorem resume_point_characterization_witness :
    some sample_row = some sample_row ∧ (0 : Int) ≤ sample_row.timestamp ∧
    download_start (some sample_row) 0 86400000 =
      (if sample_row.timestamp + 60000 > 86400000 then none
       else some (max 0 (sample_row.timestamp + 60000))) ∧
    env_fetch_fail.setup_err = none ∧
    download_start (get_latest_candle [sample_row] "BTC-USDT") 0 110000 = none ∧
    download_and_fill_data env_fetch_fail [sample_row] "BTC-USDT" 0 110000 =
      Except.ok ([sample_row], []) :=
  ⟨rfl, by decide,
    (resume_point_characterization env_fetch_fail [sample_row] "BTC-USDT"
      (some sample_row) 0 86400000).1 sample_row rfl (by decide),
    rfl, by decide,
    (resume_point_characterization env_fetch_fail [sample_row] "BTC-USDT"
      (some sample_row) 0 110000).2.2.2 rfl (by decide)⟩

/-- C3: evaluation at the failing input.  A setup failure (here: exchange
construction) makes `_download_and_fill_data` raise out of its own
`except` handler — the handler's log line reads `total_downloaded`,
assigned only after setup — so the error propagates to the caller,
contrary to the never-throws policy (and to the function's own closing
comment).  A post-setup chunk failure, by contrast, is swallowed and the
walk advances: with every fetch failing on the window `[0, 0]` the call
returns the untouched store after issuing the single chunk fetch. -/
theorem download_setup_failure_raises :
    download_and_fill_data env_setup_fail [] "BTC-USDT" 0 86400000 =
      Except.error "UnboundLocalError: total_downloaded" ∧
    download_and_fill_data env_fetch_fail [] "BTC-USDT" 0 0 =
      Except.ok ([], [0]) := by
  refine ⟨rfl, ?_⟩
  rw [download_and_fill_data]
  simp only [show env_fetch_fail.setup_err = none from rfl]
  rw [show download_start (get_latest_candle [] "BTC-USDT") 0 0 = some 0 from rfl]
  show Except.ok (dl_loop env_fetch_fail "BTC-USDT" 0 [] 0) = _
  rw [dl_loop.eq_def]
  norm_num [chunk_body, env_fetch_fail]
  rw [dl_loop.eq_def]
  norm_num

/-- The unit suffixes `_parse_interval` dispatches on, with the factor
taking the numeric part to minutes. -/
def interval_suffixes : List (List Char × Int) :=
  [(['m'], 1), (['m', 'i', 'n'], 1),
   (['h'], 60), (['h', 'o', 'u', 'r'], 60),
   (['d'], 24 * 60), (['d', 'a', 'y'], 24 * 60),
   (['w'], 7 * 24 * 60), (['w', 'e', 'e', 'k'], 7 * 24 * 60)]

lemma endswith_append (ds suf : List Char) : endswith (ds ++ suf) suf = true := by
  rw [endswith, decide_eq_true_eq]
  exact List.suffix_append ds suf

lemma suffix_getLast {t l : List Char} (h : t <:+ l) (hne : t ≠ []) :
    l.getLast? = t.getLast? := by
  obtain ⟨p, rfl⟩ := h
  rw [List.getLast?_append, List.getLast?_eq_getLast t hne]
  rfl

lemma endswith_false_of_last_ne {s t : List Char} {a b : Char}
    (hs : s.getLast? = some a) (ht : t.getLast? = some b) (hab : a ≠ b) :
    endswith s t = false := by
  rw [endswith, decide_eq_false_iff_not]
  intro hsuf
  have htne : t ≠ [] := by
    intro h
    rw [h] at ht
    simp at ht
  rw [suffix_getLast hsuf htne, ht] at hs
  exact hab (Option.some.inj hs).symm

lemma getLast_append_of_getLast {ds l : List Char} {a : Char} (h : l.getLast? = some a) :
    (ds ++ l).getLast? = some a := by
  rw [List.getLast?_append, h]
  rfl

lemma dropWhile_append_of_forall {α : Type} {p : α → Bool} :
    ∀ {l1 l2 : List α}, (∀ a ∈ l1, p a = true) →
      List.dropWhile p (l1 ++ l2) = List.dropWhile p l2 := by
  intro l1
  induction l1 with
  | nil => intro l2 _; rfl
  | cons a l ih =>
    intro l2 h
    rw [List.cons_append, List.dropWhile_cons, if_pos (h a (List.mem_cons_self _ _))]
    exact ih (fun b hb => h b (List.mem_cons_of_mem _ hb))

lemma dropWhile_eq_self_of_forall {α : Type} {p : α → Bool} :
    ∀ {l : List α}, (∀ a ∈ l, p a = false) → List.dropWhile p l = l := by
  intro l
  induction l with
  | nil => intro _; rfl
  | cons a t ih =>
    intro h
    rw [List.dropWhile_cons, if_neg (by simp [h a (List.mem_cons_self _ _)])]

lemma rstrip_append {ds suf strip : List Char}
    (h1 : ∀ c ∈ suf, strip.contains c = true)
    (h2 : ∀ c ∈ ds, strip.contains c = false) :
    rstrip_chars (ds ++ suf) strip = ds := by
  rw [rstrip_chars, List.reverse_append]
  rw [dropWhile_append_of_forall (fun a ha => h1 a (List.mem_reverse.mp ha))]
  rw [dropWhile_eq_self_of_forall (fun a ha => h2 a (List.mem_reverse.mp ha))]
  exact List.reverse_reverse ds

lemma digit_strip_contains_false {strip : List Char}
    (hstrip : strip.all (fun d => !d.isDigit) = true)
    {c : Char} (hc : c.isDigit = true) : strip.contains c = false := by
  have hnm : c ∉ strip := by
    intro hm
    have := List.all_eq_true.mp hstrip c hm
    simp [hc] at this
  simpa using hnm

lemma py_int_digits {ds : List Char} (hne : ds ≠ []) (hdig : ds.all Char.isDigit = true) :
    py_int ds = some ((digits_val ds : Nat) : Int) := by
  cases ds with
  | nil => exact absurd rfl hne
  | cons c r =>
    have hc : c.isDigit = true := by
      rw [List.all_cons, Bool.and_eq_true] at hdig
      exact hdig.1
    have hcm : ¬ c = '-' := by rintro rfl; simp at hc
    have hcp : ¬ c = '+' := by rintro rfl; simp at hc
    rw [py_int]
    rw [if_neg hcm, if_neg hcp, if_pos hdig]

lemma parse_interval_accepts :
    ∀ (s ds suf : List Char) (mult : Int),
    (suf, mult) ∈ interval_suffixes → str_lower s = ds ++ suf → ds ≠ [] →
    ds.all Char.isDigit = true →
    parse_interval s = some ((digits_val ds : Int) * mult) := by
  intro s ds suf mult hmem hlow hne hdig
  have hdigf : ∀ strip : List Char, (strip.all fun d => !d.isDigit) = true →
      ∀ c ∈ ds, strip.contains c = false := fun strip hstrip c hc =>
    digit_strip_contains_false hstrip (List.all_eq_true.mp hdig c hc)
  simp only [interval_suffixes, List.mem_cons, List.mem_singleton, Prod.mk.injEq,
    List.not_mem_nil, or_false] at hmem
  rcases hmem with h | h | h | h | h | h | h | h <;> obtain ⟨rfl, rfl⟩ := h
  · -- suffix "m"
    have hlast : (ds ++ ['m']).getLast? = some 'm' :=
      getLast_append_of_getLast rfl
    have hpi : py_int (rstrip_chars (ds ++ ['m']) ['m', 'i', 'n']) =
        some ((digits_val ds : Nat) : Int) := by
      rw [rstrip_append (by decide) (hdigf ['m', 'i', 'n'] (by decide)), py_int_digits hne hdig]
    simp only [parse_interval, hlow, endswith_append, hpi,
      Bool.false_or, Bool.true_or, Bool.or_false, if_true, if_false, Option.map_some]
    exact congrArg some (by ring)
  · -- suffix "min"
    have hlast : (ds ++ ['m', 'i', 'n']).getLast? = some 'n' :=
      getLast_append_of_getLast rfl
    have e1 : endswith (ds ++ ['m', 'i', 'n']) ['m'] = false :=
      endswith_false_of_last_ne hlast rfl (by decide)
    have hpi : py_int (rstrip_chars (ds ++ ['m', 'i', 'n']) ['m', 'i', 'n']) =
        some ((digits_val ds : Nat) : Int) := by
      rw [rstrip_append (by decide) (hdigf ['m', 'i', 'n'] (by decide)), py_int_digits hne hdig]
    simp only [parse_interval, hlow, e1, endswith_append, hpi,
      Bool.false_or, Bool.true_or, Bool.or_false, if_true, if_false, Option.map_some]
    exact congrArg some (by ring)
  · -- suffix "h"
    have hlast : (ds ++ ['h']).getLast? = some 'h' :=
      getLast_append_of_getLast rfl
    have e1 : endswith (ds ++ ['h']) ['m'] = false :=
      endswith_false_of_last_ne hlast rfl (by decide)
    have e2 : endswith (ds ++ ['h']) ['m', 'i', 'n'] = false :=
      endswith_false_of_last_ne hlast rfl (by decide)
    have hpi : py_int (rstrip_chars (ds ++ ['h']) ['h', 'o', 'u', 'r']) =
        some ((digits_val ds : Nat) : Int) := by
      rw [rstrip_append (by decide) (hdigf ['h', 'o', 'u', 'r'] (by decide)), py_int_digits hne hdig]
    simp only [parse_interval, hlow, e1, e2, endswith_append, hpi,
      Bool.false_or, Bool.true_or, Bool.or_false, if_true, if_false, Option.map_some]
    exact congrArg some (by ring)
  · -- suffix "hour"
    have hlast : (ds ++ ['h', 'o', 'u', 'r']).getLast? = some 'r' :=
      getLast_append_of_getLast rfl
    have e1 : endswith (ds ++ ['h', 'o', 'u', 'r']) ['m'] = false :=
      endswith_false_of_last_ne hlast rfl (by decide)
    have e2 : endswith (ds ++ ['h', 'o', 'u', 'r']) ['m', 'i', 'n'] = false :=
      endswith_false_of_last_ne hlast rfl (by decide)
    have e3 : endswith (ds ++ ['h', 'o', 'u', 'r']) ['h'] = false :=
      endswith_false_of_last_ne hlast rfl (by decide)
    have hpi : py_int (rstrip_chars (ds ++ ['h', 'o', 'u', 'r']) ['h', 'o', 'u', 'r']) =
        some ((digits_val ds : Nat) : Int) := by
      rw [rstrip_append (by decide) (hdigf ['h', 'o', 'u', 'r'] (by decide)), py_int_digits hne hdig]
    simp only [parse_interval, hlow, e1, e2, e3, endswith_append, hpi,
      Bool.false_or, Bool.true_or, Bool.or_false, if_true, if_false, Option.map_some]
    exact congrArg some (by ring)
  · -- suffix "d"
    have hlast : (ds ++ ['d']).getLast? = some 'd' :=
      getLast_append_of_getLast rfl
    have e1 : endswith (ds ++ ['d']) ['m'] = false :=
      endswith_false_of_last_ne hlast rfl (by decide)
    have e2 : endswith (ds ++ ['d']) ['m', 'i', 'n'] = false :=
      endswith_false_of_last_ne hlast rfl (by decide)
    have e3 : endswith (ds ++ ['d']) ['h'] = false :=
      endswith_false_of_last_ne hlast rfl (by decide)
    have e4 : endswith (ds ++ ['d']) ['h', 'o', 'u', 'r'] = false :=
      endswith_false_of_last_ne hlast rfl (by decide)
    have hpi : py_int (rstrip_chars (ds ++ ['d']) ['d', 'a', 'y']) =
        some ((digits_val ds : Nat) : Int) := by
      rw [rstrip_append (by decide) (hdigf ['d', 'a', 'y'] (by decide)), py_int_digits hne hdig]
    simp only [parse_interval, hlow, e1, e2, e3, e4, endswith_append, hpi,
      Bool.false_or, Bool.true_or, Bool.or_false, if_true, if_false, Option.map_some]
    exact congrArg some (by ring)
  · -- suffix "day"
    have hlast : (ds ++ ['d', 'a', 'y']).getLast? = some 'y' :=
      getLast_append_of_getLast rfl
    have e1 : endswith (ds ++ ['d', 'a', 'y']) ['m'] = false :=
      endswith_false_of_last_ne hlast rfl (by decide)
    have e2 : endswith (ds ++ ['d', 'a', 'y']) ['m', 'i', 'n'] = false :=
      endswith_false_of_last_ne hlast rfl (by decide)
    have e3 : endswith (ds ++ ['d', 'a', 'y']) ['h'] = false :=
      endswith_false_of_last_ne hlast rfl (by decide)
    have e4 : endswith (ds ++ ['d', 'a', 'y']) ['h', 'o', 'u', 'r'] = false :=
      endswith_false_of_last_ne hlast rfl (by decide)
    have e5 : endswith (ds ++ ['d', 'a', 'y']) ['d'] = false :=
      endswith_false_of_last_ne hlast rfl (by decide)
    have hpi : py_int (rstrip_chars (ds ++ ['d', 'a', 'y']) ['d', 'a', 'y']) =
        some ((digits_val ds : Nat) : Int) := by
      rw [rstrip_append (by decide) (hdigf ['d', 'a', 'y'] (by decide)), py_int_digits hne hdig]
    simp only [parse_interval, hlow, e1, e2, e3, e4, e5, endswith_append, hpi,
      Bool.false_or, Bool.true_or, Bool.or_false, if_true, if_false, Option.map_some]
    exact congrArg some (by ring)
  · -- suffix "w"
    have hlast : (ds ++ ['w']).getLast? = some 'w' :=
      getLast_append_of_getLast rfl
    have e1 : endswith (ds ++ ['w']) ['m'] = false :=
      endswith_false_of_last_ne hlast rfl (by decide)
    have e2 : endswith (ds ++ ['w']) ['m', 'i', 'n'] = false :=
      endswith_false_of_last_ne hlast rfl (by decide)
    have e3 : endswith (ds ++ ['w']) ['h'] = false :=
      endswith_false_of_last_ne hlast rfl (by decide)
    have e4 : endswith (ds ++ ['w']) ['h', 'o', 'u', 'r'] = false :=
      endswith_false_of_last_ne hlast rfl (by decide)
    have e5 : endswith (ds ++ ['w']) ['d'] = false :=
      endswith_false_of_last_ne hlast rfl (by decide)
    have e6 : endswith (ds ++ ['w']) ['d', 'a', 'y'] = false :=
      endswith_false_of_last_ne hlast rfl (by decide)
    have hpi : py_int (rstrip_chars (ds ++ ['w']) ['w', 'e', 'e', 'k']) =
        some ((digits_val ds : Nat) : Int) := by
      rw [rstrip_append (by decide) (hdigf ['w', 'e', 'e', 'k'] (by decide)), py_int_digits hne hdig]
    simp only [parse_interval, hlow, e1, e2, e3, e4, e5, e6, endswith_append, hpi,
      Bool.false_or, Bool.true_or, Bool.or_false, if_true, if_false, Option.map_some]
    exact congrArg some (by ring)
  · -- suffix "week"
    have hlast : (ds ++ ['w', 'e', 'e', 'k']).getLast? = some 'k' :=
      getLast_append_of_getLast rfl
    have e1 : endswith (ds ++ ['w', 'e', 'e', 'k']) ['m'] = false :=
      endswith_false_of_last_ne hlast rfl (by decide)
    have e2 : endswith (ds ++ ['w', 'e', 'e', 'k']) ['m', 'i', 'n'] = false :=
      endswith_false_of_last_ne hlast rfl (by decide)
    have e3 : endswith (ds ++ ['w', 'e', 'e', 'k']) ['h'] = false :=
      endswith_false_of_last_ne hlast rfl (by decide)
    have e4 : endswith (ds ++ ['w', 'e', 'e', 'k']) ['h', 'o', 'u', 'r'] = false :=
      endswith_false_of_last_ne hlast rfl (by decide)
    have e5 : endswith (ds ++ ['w', 'e', 'e', 'k']) ['d'] = false :=
      endswith_false_of_last_ne hlast rfl (by decide)
    have e6 : endswith (ds ++ ['w', 'e', 'e', 'k']) ['d', 'a', 'y'] = false :=
      endswith_false_of_last_ne hlast rfl (by decide)
    have e7 : endswith (ds ++ ['w', 'e', 'e', 'k']) ['w'] = false :=
      endswith_false_of_last_ne hlast rfl (by decide)
    have hpi : py_int (rstrip_chars (ds ++ ['w', 'e', 'e', 'k']) ['w', 'e', 'e', 'k']) =
        some ((digits_val ds : Nat) : Int) := by
      rw [rstrip_append (by decide) (hdigf ['w', 'e', 'e', 'k'] (by decide)), py_int_digits hne hdig]
    simp only [parse_interval, hlow, e1, e2, e3, e4, e5, e6, e7, endswith_append, hpi,
      Bool.false_or, Bool.true_or, Bool.or_false, if_true, if_false, Option.map_some]
    exact congrArg some (by ring)

/-- C9: the interval parser accepts, case-insensitively, every string of
the form `<digits><suffix>` with suffix in m/min/h/hour/d/day/w/week,
returning the numeric part times the suffix's minute factor (so 7m, 3h,
2d and uppercase 1M are accepted); and a string rejected with the
invalid-interval error has no such decomposition: whenever the lowered
string splits as `<prefix><suffix>` with a recognized suffix, the prefix
is empty or not purely numeric. -/
theorem parse_interval_units (s ds suf : List Char) (mult : Int)
    (hmem : (suf, mult) ∈ interval_suffixes)
    (hlow : str_lower s = ds ++ suf)
    (hne : ds ≠ []) (hdig : ds.all Char.isDigit = true) :
    parse_interval s = some ((digits_val ds : Int) * mult) ∧
    (∀ t, parse_interval t = none →
      ∀ es esuf emult, (esuf, emult) ∈ interval_suffixes → str_lower t = es ++ esuf →
        es = [] ∨ es.all Char.isDigit = false) := by
  refine ⟨parse_interval_accepts s ds suf mult hmem hlow hne hdig, ?_⟩
  intro t ht es esuf emult hm hl
  by_cases h1 : es = []
  · exact Or.inl h1
  · by_cases h2 : es.all Char.isDigit = true
    · exact absurd (parse_interval_accepts t es esuf emult hm hl h1 h2) (by simp [ht])
    · exact Or.inr (Bool.eq_false_iff.mpr h2)

/-- Witness for `parse_interval_units`: uppercase `1M` parses to one
minute and `3h` to 180 minutes. -/
theorem parse_interval_units_witness :
    (['m'], (1 : Int)) ∈ interval_suffixes ∧
    str_lower ['1', 'M'] = ['1'] ++ ['m'] ∧ (['1'] : List Char) ≠ [] ∧
    (['1'] : List Char).all Char.isDigit = true ∧
    parse_interval ['1', 'M'] = some ((digits_val ['1'] : Int) * 1) ∧
    parse_interval ['3', 'h'] = some ((digits_val ['3'] : Int) * 60) :=
  ⟨by decide, by decide, by decide, by decide,
    (parse_interval_units ['1', 'M'] ['1'] ['m'] 1 (by decide) (by decide) (by decide)
      (by decide)).1,
    (parse_interval_units ['3', 'h'] ['3'] ['h'] 60 (by decide) (by decide) (by decide)
      (by decide)).1⟩
